import Mathlib

/-!
Shallow embedding of the message dispatch engine of
`cogs/message_scheduler.py` (class `MessageScheduler`), together with the
ordinal-suffix helper `get_day_suffix` of `cogs/utils/values.py`.

Timestamps are PostgreSQL `timestamp` values (no zone; the loop works at
minute granularity); they are modelled as a civil date-time record,
linearly ordered through `toSec`.  The scheduler state holds the
`scheduled_messages` table, the in-memory `sent_ids` list, and a counter
standing for the `uuid_generate_v4()` generator: every generated id is the
current counter value, so generated ids are fresh whenever every stored id
is below the counter.
-/

namespace Calendar

/-- Leap-year test of the proleptic Gregorian calendar. -/
def isLeap (y : Nat) : Bool :=
  y % 4 == 0 && (y % 100 != 0 || y % 400 == 0)

/-- Number of days of month `m` of year `y`. -/
def daysInMonth (y m : Nat) : Nat :=
  if m == 2 then (if isLeap y then 29 else 28)
  else if m == 4 || m == 6 || m == 9 || m == 11 then 30
  else 31

/-- A civil UTC date-time at second precision, as stored in the
`timestamp` column. -/
structure DateTime where
  year : Nat
  month : Nat
  day : Nat
  hour : Nat
  minute : Nat
  second : Nat
deriving DecidableEq

/-- Days since 1970-01-01 of the civil date `y-m-d` (Gregorian). -/
def daysFromCivil (y m d : Nat) : Int :=
  let y' := if m ≤ 2 then y - 1 else y
  let era := y' / 400
  let yoe := y' % 400
  let mp := if m ≤ 2 then m + 9 else m - 3
  let doy := (153 * mp + 2) / 5 + (d - 1)
  let doe := yoe * 365 + yoe / 4 - yoe / 100 + doy
  ((era * 146097 + doe : Nat) : Int) - 719468

/-- Seconds since the epoch: the linear order in which `timestamp` values
are compared by the SQL queries. -/
def toSec (t : DateTime) : Int :=
  daysFromCivil t.year t.month t.day * 86400
    + ((t.hour * 3600 + t.minute * 60 + t.second : Nat) : Int)

/-- Line 150, `dt.utcnow().replace(second=0, microsecond=0)`: truncation
to the minute. -/
def truncMin (t : DateTime) : DateTime :=
  { t with second := 0 }

theorem toSec_truncMin (t : DateTime) :
    toSec t = toSec (truncMin t) + (t.second : Int) := by
  simp only [toSec, truncMin]
  push_cast
  ring

/-- PostgreSQL `timestamp + INTERVAL '1 day'`: the same time of day on
the next calendar day (exactly 24 hours, the column carrying no zone). -/
def addOneDay (t : DateTime) : DateTime :=
  if t.day < daysInMonth t.year t.month then { t with day := t.day + 1 }
  else if t.month < 12 then { t with month := t.month + 1, day := 1 }
  else { t with year := t.year + 1, month := 1, day := 1 }

/-- PostgreSQL `timestamp + INTERVAL '1 month'`: advance the month by
one, clamping the day to the last day of the destination month. -/
def addOneMonth (t : DateTime) : DateTime :=
  if t.month == 12 then
    { t with year := t.year + 1, month := 1,
             day := min t.day (daysInMonth (t.year + 1) 1) }
  else
    { t with month := t.month + 1,
             day := min t.day (daysInMonth t.year (t.month + 1)) }

/-- PostgreSQL `timestamp + INTERVAL '1 year'`: advance the year by one,
clamping the day (Feb 29 in a non-leap destination year becomes Feb 28). -/
def addOneYear (t : DateTime) : DateTime :=
  { t with year := t.year + 1,
           day := min t.day (daysInMonth (t.year + 1) t.month) }

/-- The non-null values of the `repeat` column expanded by
`add_repeating_events`. -/
inductive RepeatTag
  | daily
  | monthly
  | yearly
deriving DecidableEq

/-- The interval added by the `INSERT INTO … SELECT … timestamp +
INTERVAL` statement for each tag. -/
def advanceBy : RepeatTag → DateTime → DateTime
  | .daily => addOneDay
  | .monthly => addOneMonth
  | .yearly => addOneYear

/-- A row of the `scheduled_messages` table (`ScheduledMessageDict`).
The field `rep` models the `repeat` column, which is NULL for
non-repeating rows (`repeat` is a reserved word in Lean). -/
structure SMsg where
  id : Nat
  guild_id : Nat
  channel_id : Nat
  user_id : Nat
  text : String
  timestamp : DateTime
  rep : Option RepeatTag
deriving DecidableEq

/-- Scheduler state: the `scheduled_messages` table, the in-memory
`sent_ids` cache of `(recorded_at, id)` pairs (line 18), and the id
generator counter. -/
structure SchedState where
  store : List SMsg
  sent_ids : List (Int × Nat)
  nextId : Nat
deriving DecidableEq

/-- Observable actions of one tick: a successor row inserted by
`add_repeating_events` (tagged with the id of the row it was selected
from), or one `channel.send` attempt with its outcome. -/
inductive Event
  | insertSucc (parent : Nat) (succ : SMsg)
  | deliver (id : Nat) (ok : Bool)
deriving DecidableEq

/-- The ids currently held in the cache (`[i[1] for i in self.sent_ids]`). -/
def cacheIds (c : List (Int × Nat)) : List Nat :=
  c.map Prod.snd

/-- The WHERE clause shared by the due query and the expansion inserts:
`timestamp >= $1 AND timestamp < $2 AND NOT (id = ANY($3::UUID[]))`,
with `$1` the truncated now and `$2 = $1 + timedelta(minutes=1)`. -/
def dueP (wStart : Int) (excl : List Nat) (r : SMsg) : Bool :=
  decide (wStart ≤ toSec r.timestamp) &&
  decide (toSec r.timestamp < wStart + 60) &&
  !decide (r.id ∈ excl)

/-- The due query at the top of `message_schedule_send_loop`
(`SELECT * FROM scheduled_messages WHERE …`, lines 152-166). -/
def dueQuery (wStart : Int) (excl : List Nat) (store : List SMsg) : List SMsg :=
  store.filter (dueP wStart excl)

/-- Selection clause of one `INSERT INTO … SELECT` statement of
`add_repeating_events`: the due clause plus `repeat = tag`. -/
def candP (tag : RepeatTag) (wStart : Int) (excl : List Nat) (r : SMsg) : Bool :=
  dueP wStart excl r && (r.rep == some tag)

/-- The row built by the SELECT list of the insert: fresh id, same
`guild_id`, `channel_id`, `user_id`, `text`, `repeat`, advanced
`timestamp`. -/
def mkSucc (tag : RepeatTag) (fresh : Nat) (r : SMsg) : SMsg :=
  { id := fresh, guild_id := r.guild_id, channel_id := r.channel_id,
    user_id := r.user_id, text := r.text,
    timestamp := advanceBy tag r.timestamp, rep := r.rep }

/-- Successor rows for a candidate list, ids drawn consecutively from the
generator counter. -/
def mkSuccs (tag : RepeatTag) (n : Nat) : List SMsg → List SMsg
  | [] => []
  | r :: rs => mkSucc tag n r :: mkSuccs tag (n + 1) rs

/-- Insertion events matching `mkSuccs`. -/
def mkSuccEvents (tag : RepeatTag) (n : Nat) : List SMsg → List Event
  | [] => []
  | r :: rs => .insertSucc r.id (mkSucc tag n r) :: mkSuccEvents tag (n + 1) rs

/-- One `INSERT INTO scheduled_messages … SELECT …` statement: appends
one successor row per candidate and advances the id generator. -/
def expandPass (tag : RepeatTag) (wStart : Int) (excl : List Nat)
    (store : List SMsg) (n : Nat) : List SMsg × Nat × List Event :=
  (store ++ mkSuccs tag n (store.filter (candP tag wStart excl)),
   n + (store.filter (candP tag wStart excl)).length,
   mkSuccEvents tag n (store.filter (candP tag wStart excl)))

/-- `MessageScheduler.add_repeating_events` (lines 25-140): the daily,
monthly and yearly insert statements, run in that order, each reading the
table as left by the previous one. -/
def add_repeating_events (wStart : Int) (excl : List Nat)
    (store : List SMsg) (n : Nat) : List SMsg × Nat × List Event :=
  let p1 := expandPass .daily wStart excl store n
  let p2 := expandPass .monthly wStart excl p1.1 p1.2.1
  let p3 := expandPass .yearly wStart excl p2.1 p2.2.1
  (p3.1, p3.2.1, p1.2.2 ++ (p2.2.2 ++ p3.2.2))

/-- The `messages` list fetched at the top of one tick. -/
def tickDue (tNow : DateTime) (st : SchedState) : List SMsg :=
  dueQuery (toSec (truncMin tNow)) (cacheIds st.sent_ids) st.store

/-- One execution of the body of `message_schedule_send_loop`
(lines 142-197) at current time `tNow` (the successive `dt.utcnow()`
calls inside one tick are modelled as this single instant), with Delivery
Sink `sink` (`channel.send` returning, or raising
`discord.HTTPException`, which the body catches per record): fetch the
due rows, run `add_repeating_events`, attempt every delivery, append
`(now, id)` to `sent_ids` for every fetched row, then keep only the
cache entries satisfying `i[0] > utcnow() - timedelta(minutes=2)`. -/
def tick (sink : SMsg → Bool) (tNow : DateTime) (st : SchedState) :
    SchedState × List Event :=
  let wStart := toSec (truncMin tNow)
  let tSec := toSec tNow
  let messages := tickDue tNow st
  let p := add_repeating_events wStart (cacheIds st.sent_ids) st.store st.nextId
  let delEvents := messages.map (fun r => Event.deliver r.id (sink r))
  let cache1 := st.sent_ids ++ messages.map (fun r => (tSec, r.id))
  ({ store := p.1,
     sent_ids := cache1.filter (fun e => decide (tSec - 120 < e.1)),
     nextId := p.2.1 },
   p.2.2 ++ delEvents)

/-- Consecutive ticks without restart: thread the state, concatenate the
events. -/
def runTicks (sink : SMsg → Bool) (st : SchedState) :
    List DateTime → SchedState × List Event
  | [] => (st, [])
  | t :: ts =>
    ((runTicks sink (tick sink t st).1 ts).1,
     (tick sink t st).2 ++ (runTicks sink (tick sink t st).1 ts).2)

/-- Recognizer for a delivery attempt of the record with id `i`. -/
def isDeliverOf (i : Nat) : Event → Bool
  | .deliver j _ => j == i
  | .insertSucc _ _ => false

/-- Recognizer for a successor insertion selected from the record with
id `i`. -/
def isInsertOf (i : Nat) : Event → Bool
  | .insertSucc p _ => p == i
  | .deliver _ _ => false

/-- How many times the record with id `i` was passed to the Delivery
Sink. -/
def deliverCount (i : Nat) (es : List Event) : Nat :=
  es.countP (isDeliverOf i)

/-- How many successor rows were inserted from the record with id `i`. -/
def insertCount (i : Nat) (es : List Event) : Nat :=
  es.countP (isInsertOf i)

/-- Store well-formedness: ids are unique (spec invariant for `id`) and
below the generator counter (freshness of `uuid_generate_v4`). -/
def wf (st : SchedState) : Prop :=
  (st.store.map SMsg.id).Nodup ∧ ∀ r ∈ st.store, r.id < st.nextId

/-- The database statements issued inside one tick, in program order. -/
inductive DbCall
  | query
  | insDaily
  | insMonthly
  | insYearly
deriving DecidableEq

/-- A tick in which the database statement `fail` raises: the exception
propagates out of the loop body, so everything after the failing
statement is skipped (no deliveries, no cache append, no eviction).
Each `db.call` runs as its own implicit transaction, so statements that
completed before the failing one keep their effects. -/
def tickFail (fail : DbCall) (tNow : DateTime) (st : SchedState) : SchedState :=
  match fail with
  | .query => st
  | .insDaily => st
  | .insMonthly =>
    let p1 := expandPass .daily (toSec (truncMin tNow)) (cacheIds st.sent_ids)
      st.store st.nextId
    { st with store := p1.1, nextId := p1.2.1 }
  | .insYearly =>
    let p1 := expandPass .daily (toSec (truncMin tNow)) (cacheIds st.sent_ids)
      st.store st.nextId
    let p2 := expandPass .monthly (toSec (truncMin tNow)) (cacheIds st.sent_ids)
      p1.1 p1.2.1
    { st with store := p2.1, nextId := p2.2.1 }

/-- `get_day_suffix` of `cogs/utils/values.py`: ordinal suffix chosen by
the last character of `str(date)`. -/
def get_day_suffix (date : Nat) : String :=
  if (Nat.repr date).back = '1' then "st"
  else if (Nat.repr date).back = '2' then "nd"
  else if (Nat.repr date).back = '3' then "rd"
  else "th"

/-! ### Generic facts about ids and counting -/

theorem id_inj_of_nodup {s : List SMsg} (hnd : (s.map SMsg.id).Nodup)
    {x y : SMsg} (hx : x ∈ s) (hy : y ∈ s) (h : x.id = y.id) : x = y := by
  induction s with
  | nil => cases hx
  | cons a t ih =>
    rw [List.map_cons, List.nodup_cons] at hnd
    rcases List.mem_cons.mp hx with rfl | hx' <;>
      rcases List.mem_cons.mp hy with rfl | hy'
    · rfl
    · exact absurd (by rw [h]; exact List.mem_map_of_mem SMsg.id hy') hnd.1
    · exact absurd (by rw [← h]; exact List.mem_map_of_mem SMsg.id hx') hnd.1
    · exact ih hnd.2 hx' hy'

theorem countP_eq_one_of_unique {s : List SMsg} (q : SMsg → Bool) (r : SMsg)
    (hnd : (s.map SMsg.id).Nodup) (hr : r ∈ s) (hq : q r = true)
    (huniq : ∀ x ∈ s, q x = true → x.id = r.id) :
    s.countP q = 1 := by
  induction s with
  | nil => cases hr
  | cons a t ih =>
    rw [List.map_cons, List.nodup_cons] at hnd
    rcases List.mem_cons.mp hr with rfl | hr'
    · have ht : t.countP q = 0 := by
        rw [List.countP_eq_zero]
        intro x hx hqx
        exact hnd.1 (huniq x (List.mem_cons_of_mem _ hx) hqx ▸
          List.mem_map_of_mem SMsg.id hx)
      rw [List.countP_cons, ht, if_pos hq]
    · have ha : q a = false := by
        by_contra hqa
        have haid := huniq a (List.mem_cons_self a t) (by simpa using hqa)
        exact hnd.1 (haid ▸ List.mem_map_of_mem SMsg.id hr')
      rw [List.countP_cons, if_neg (by simp [ha]),
        ih hnd.2 hr' (fun x hx => huniq x (List.mem_cons_of_mem _ hx))]

theorem countP_id_le_one {s : List SMsg} (hnd : (s.map SMsg.id).Nodup)
    (pid : Nat) : s.countP (fun c => c.id == pid) ≤ 1 := by
  have hmap : s.countP (fun c => c.id == pid) =
      (s.map SMsg.id).countP (fun i => i == pid) := by
    rw [List.countP_map]; rfl
  rw [hmap]
  exact List.nodup_iff_count_le_one.mp hnd pid

theorem countP_three_exclusive {α : Type} (l : List α) (p1 p2 p3 q : α → Bool)
    (hex : ∀ a, (if p1 a then 1 else 0) + (if p2 a then 1 else 0)
      + (if p3 a then 1 else 0) ≤ 1) :
    (l.filter p1).countP q + (l.filter p2).countP q + (l.filter p3).countP q
      ≤ l.countP q := by
  induction l with
  | nil => simp
  | cons a t ih =>
    have ha := hex a
    cases h1 : p1 a <;> cases h2 : p2 a <;> cases h3 : p3 a <;>
      cases hq : q a <;>
      simp [List.filter_cons, List.countP_cons, h1, h2, h3, hq] at ha ⊢ <;>
      omega

/-! ### Successor construction lemmas -/

theorem mem_mkSuccs {tag : RepeatTag} {n : Nat} {cs : List SMsg} {s : SMsg}
    (h : s ∈ mkSuccs tag n cs) :
    ∃ c ∈ cs, ∃ k, n ≤ k ∧ k < n + cs.length ∧ s = mkSucc tag k c := by
  induction cs generalizing n with
  | nil => simp [mkSuccs] at h
  | cons a t ih =>
    rcases List.mem_cons.mp h with rfl | h'
    · exact ⟨a, List.mem_cons_self a t, n, Nat.le_refl n, by simp, rfl⟩
    · obtain ⟨c, hc, k, hk1, hk2, rfl⟩ := ih h'
      exact ⟨c, List.mem_cons_of_mem _ hc, k, Nat.le_of_succ_le hk1,
        by simp only [List.length_cons]; omega, rfl⟩

theorem mkSuccs_id_ge {tag : RepeatTag} {n : Nat} {cs : List SMsg} {s : SMsg}
    (h : s ∈ mkSuccs tag n cs) : n ≤ s.id := by
  obtain ⟨c, _, k, hk, _, rfl⟩ := mem_mkSuccs h
  exact hk

theorem mkSuccs_id_lt {tag : RepeatTag} {n : Nat} {cs : List SMsg} {s : SMsg}
    (h : s ∈ mkSuccs tag n cs) : s.id < n + cs.length := by
  obtain ⟨c, _, k, _, hk, rfl⟩ := mem_mkSuccs h
  exact hk

theorem mkSuccs_ids_nodup (tag : RepeatTag) (n : Nat) (cs : List SMsg) :
    ((mkSuccs tag n cs).map SMsg.id).Nodup := by
  induction cs generalizing n with
  | nil => simp [mkSuccs]
  | cons a t ih =>
    rw [mkSuccs, List.map_cons, List.nodup_cons]
    refine ⟨?_, ih (n + 1)⟩
    intro hmem
    obtain ⟨s, hs, hsid⟩ := List.mem_map.mp hmem
    have := mkSuccs_id_ge hs
    simp only [mkSucc] at hsid
    omega

theorem mkSuccs_rep {tag : RepeatTag} {n : Nat} {cs : List SMsg}
    (hcs : ∀ c ∈ cs, c.rep = some tag) :
    ∀ s ∈ mkSuccs tag n cs, s.rep = some tag := by
  intro s hs
  obtain ⟨c, hc, k, _, _, rfl⟩ := mem_mkSuccs hs
  simpa [mkSucc] using hcs c hc

theorem mem_mkSuccEvents {tag : RepeatTag} {n : Nat} {cs : List SMsg}
    {p : Nat} {s : SMsg} (h : Event.insertSucc p s ∈ mkSuccEvents tag n cs) :
    ∃ c ∈ cs, c.id = p ∧ (∃ k, n ≤ k ∧ s = mkSucc tag k c) ∧
      s ∈ mkSuccs tag n cs := by
  induction cs generalizing n with
  | nil => simp [mkSuccEvents] at h
  | cons a t ih =>
    rw [mkSuccEvents] at h
    rcases List.mem_cons.mp h with heq | h'
    · obtain ⟨h1, h2⟩ := Event.insertSucc.inj heq
      exact ⟨a, List.mem_cons_self a t, h1.symm, ⟨n, Nat.le_refl n, h2⟩,
        by rw [mkSuccs, h2]; exact List.mem_cons_self _ _⟩
    · obtain ⟨c, hc, hid, ⟨k, hk, hs⟩, hmem⟩ := ih h'
      exact ⟨c, List.mem_cons_of_mem _ hc, hid, ⟨k, Nat.le_of_succ_le hk, hs⟩,
        by rw [mkSuccs]; exact List.mem_cons_of_mem _ hmem⟩

theorem mkSuccEvents_shape {tag : RepeatTag} {n : Nat} {cs : List SMsg} :
    ∀ e ∈ mkSuccEvents tag n cs, ∃ p s, e = Event.insertSucc p s := by
  induction cs generalizing n with
  | nil => simp [mkSuccEvents]
  | cons a t ih =>
    intro e he
    rcases List.mem_cons.mp he with rfl | h'
    · exact ⟨_, _, rfl⟩
    · exact ih _ h'

theorem countP_mkSuccEvents (tag : RepeatTag) (n : Nat) (cs : List SMsg)
    (pid : Nat) :
    (mkSuccEvents tag n cs).countP (isInsertOf pid) =
      cs.countP (fun c => c.id == pid) := by
  induction cs generalizing n with
  | nil => simp [mkSuccEvents]
  | cons a t ih =>
    rw [mkSuccEvents, List.countP_cons, List.countP_cons, ih]
    rfl

theorem mkSuccEvents_no_deliver (tag : RepeatTag) (n : Nat) (cs : List SMsg)
    (pid : Nat) :
    (mkSuccEvents tag n cs).countP (isDeliverOf pid) = 0 := by
  rw [List.countP_eq_zero]
  intro e he
  obtain ⟨p, s, rfl⟩ := mkSuccEvents_shape e he
  simp [isDeliverOf]

/-! ### Decomposition of `add_repeating_events` -/

theorem filter_cands_rep (tag : RepeatTag) (w : Int) (x : List Nat)
    (store : List SMsg) :
    ∀ c ∈ store.filter (candP tag w x), c.rep = some tag := by
  intro c hc
  have h := (List.mem_filter.mp hc).2
  rw [candP, Bool.and_eq_true] at h
  exact eq_of_beq h.2

theorem filter_mkSuccs_eq_nil {tag tag' : RepeatTag} (hne : tag ≠ tag')
    (w : Int) (x : List Nat) (n : Nat) {cs : List SMsg}
    (hcs : ∀ c ∈ cs, c.rep = some tag) :
    (mkSuccs tag n cs).filter (candP tag' w x) = [] := by
  rw [List.filter_eq_nil_iff]
  intro s hs
  have hrep := mkSuccs_rep hcs s hs
  simp [candP, hrep, hne]

theorem are_store_eq (w : Int) (x : List Nat) (s : List SMsg) (n : Nat) :
    (add_repeating_events w x s n).1 =
      s ++ mkSuccs .daily n (s.filter (candP .daily w x))
        ++ mkSuccs .monthly (n + (s.filter (candP .daily w x)).length)
            (s.filter (candP .monthly w x))
        ++ mkSuccs .yearly (n + (s.filter (candP .daily w x)).length
            + (s.filter (candP .monthly w x)).length)
            (s.filter (candP .yearly w x)) := by
  have hd := filter_cands_rep .daily w x s
  have hm2 : (s ++ mkSuccs .daily n (s.filter (candP .daily w x))).filter
      (candP .monthly w x) = s.filter (candP .monthly w x) := by
    rw [List.filter_append,
      filter_mkSuccs_eq_nil (by simp) w x n (filter_cands_rep .daily w x s),
      List.append_nil]
  have hy2 : ((s ++ mkSuccs .daily n (s.filter (candP .daily w x)))
        ++ mkSuccs .monthly (n + (s.filter (candP .daily w x)).length)
            (s.filter (candP .monthly w x))).filter (candP .yearly w x) =
      s.filter (candP .yearly w x) := by
    rw [List.filter_append, List.filter_append,
      filter_mkSuccs_eq_nil (by simp) w x n (filter_cands_rep .daily w x s),
      filter_mkSuccs_eq_nil (by simp) w x _ (filter_cands_rep .monthly w x _),
      List.append_nil, List.append_nil]
  simp only [add_repeating_events, expandPass]
  rw [hm2, hy2]

theorem are_events_eq (w : Int) (x : List Nat) (s : List SMsg) (n : Nat) :
    (add_repeating_events w x s n).2.2 =
      mkSuccEvents .daily n (s.filter (candP .daily w x))
        ++ (mkSuccEvents .monthly (n + (s.filter (candP .daily w x)).length)
              (s.filter (candP .monthly w x))
            ++ mkSuccEvents .yearly (n + (s.filter (candP .daily w x)).length
                + (s.filter (candP .monthly w x)).length)
                (s.filter (candP .yearly w x))) := by
  have hm2 : (s ++ mkSuccs .daily n (s.filter (candP .daily w x))).filter
      (candP .monthly w x) = s.filter (candP .monthly w x) := by
    rw [List.filter_append,
      filter_mkSuccs_eq_nil (by simp) w x n (filter_cands_rep .daily w x s),
      List.append_nil]
  have hy2 : ((s ++ mkSuccs .daily n (s.filter (candP .daily w x)))
        ++ mkSuccs .monthly (n + (s.filter (candP .daily w x)).length)
            (s.filter (candP .monthly w x))).filter (candP .yearly w x) =
      s.filter (candP .yearly w x) := by
    rw [List.filter_append, List.filter_append,
      filter_mkSuccs_eq_nil (by simp) w x n (filter_cands_rep .daily w x s),
      filter_mkSuccs_eq_nil (by simp) w x _ (filter_cands_rep .monthly w x _),
      List.append_nil, List.append_nil]
  simp only [add_repeating_events, expandPass]
  rw [hm2, hy2]

theorem are_nextId_eq (w : Int) (x : List Nat) (s : List SMsg) (n : Nat) :
    (add_repeating_events w x s n).2.1 =
      n + (s.filter (candP .daily w x)).length
        + (s.filter (candP .monthly w x)).length
        + (s.filter (candP .yearly w x)).length := by
  have hm2 : (s ++ mkSuccs .daily n (s.filter (candP .daily w x))).filter
      (candP .monthly w x) = s.filter (candP .monthly w x) := by
    rw [List.filter_append,
      filter_mkSuccs_eq_nil (by simp) w x n (filter_cands_rep .daily w x s),
      List.append_nil]
  have hy2 : ((s ++ mkSuccs .daily n (s.filter (candP .daily w x)))
        ++ mkSuccs .monthly (n + (s.filter (candP .daily w x)).length)
            (s.filter (candP .monthly w x))).filter (candP .yearly w x) =
      s.filter (candP .yearly w x) := by
    rw [List.filter_append, List.filter_append,
      filter_mkSuccs_eq_nil (by simp) w x n (filter_cands_rep .daily w x s),
      filter_mkSuccs_eq_nil (by simp) w x _ (filter_cands_rep .monthly w x _),
      List.append_nil, List.append_nil]
  simp only [add_repeating_events, expandPass]
  rw [hm2, hy2]

theorem insertCount_are (w : Int) (x : List Nat) (s : List SMsg) (n : Nat)
    (pid : Nat) :
    insertCount pid (add_repeating_events w x s n).2.2 =
      (s.filter (candP .daily w x)).countP (fun c => c.id == pid)
      + (s.filter (candP .monthly w x)).countP (fun c => c.id == pid)
      + (s.filter (candP .yearly w x)).countP (fun c => c.id == pid) := by
  rw [insertCount, are_events_eq, List.countP_append, List.countP_append,
    countP_mkSuccEvents, countP_mkSuccEvents, countP_mkSuccEvents]
  omega

theorem candP_exclusive (w : Int) (x : List Nat) (a : SMsg) :
    (if candP .daily w x a then 1 else 0) + (if candP .monthly w x a then 1 else 0)
      + (if candP .yearly w x a then 1 else 0) ≤ 1 := by
  rcases h : a.rep with _ | tag
  · simp [candP, h]
  · cases tag <;> simp [candP, h] <;> split_ifs <;> omega

theorem insertCount_are_le_one (w : Int) (x : List Nat) {s : List SMsg}
    (n : Nat) (pid : Nat) (hnd : (s.map SMsg.id).Nodup) :
    insertCount pid (add_repeating_events w x s n).2.2 ≤ 1 := by
  rw [insertCount_are]
  exact Nat.le_trans
    (countP_three_exclusive s _ _ _ _ (candP_exclusive w x))
    (countP_id_le_one hnd pid)

theorem insertCount_are_of_mem_excl (w : Int) {x : List Nat} (s : List SMsg)
    (n : Nat) {pid : Nat} (hx : pid ∈ x) :
    insertCount pid (add_repeating_events w x s n).2.2 = 0 := by
  rw [insertCount_are]
  have hz : ∀ (tag : RepeatTag) (l : List SMsg),
      (l.filter (candP tag w x)).countP (fun c => c.id == pid) = 0 := by
    intro tag l
    rw [List.countP_eq_zero]
    intro c hc hcp
    have h := (List.mem_filter.mp hc).2
    rw [candP, Bool.and_eq_true, dueP, Bool.and_eq_true] at h
    have hnotin : ¬ (c.id ∈ x) := by simpa using h.1.2
    exact hnotin (by rw [eq_of_beq hcp]; exact hx)
  rw [hz, hz, hz]

theorem insertCount_are_pos_due (w : Int) (x : List Nat) (s : List SMsg)
    (n : Nat) (pid : Nat)
    (h : 0 < insertCount pid (add_repeating_events w x s n).2.2) :
    ∃ c ∈ s, c.id = pid ∧ dueP w x c = true := by
  rw [insertCount_are] at h
  have hone : (0 < (s.filter (candP .daily w x)).countP (fun c => c.id == pid))
      ∨ (0 < (s.filter (candP .monthly w x)).countP (fun c => c.id == pid))
      ∨ (0 < (s.filter (candP .yearly w x)).countP (fun c => c.id == pid)) := by
    omega
  have key : ∀ tag : RepeatTag,
      0 < (s.filter (candP tag w x)).countP (fun c => c.id == pid) →
      ∃ c ∈ s, c.id = pid ∧ dueP w x c = true := by
    intro tag hpos
    obtain ⟨c, hc, hcp⟩ := List.countP_pos_iff.mp hpos
    have hmem := List.mem_filter.mp hc
    refine ⟨c, hmem.1, eq_of_beq hcp, ?_⟩
    have := hmem.2
    rw [candP, Bool.and_eq_true] at this
    exact this.1
  rcases hone with h1 | h2 | h3
  · exact key .daily h1
  · exact key .monthly h2
  · exact key .yearly h3

/-! ### Due query and tick projections -/

theorem mem_tickDue {tNow : DateTime} {st : SchedState} {r : SMsg} :
    r ∈ tickDue tNow st ↔
      r ∈ st.store ∧ toSec (truncMin tNow) ≤ toSec r.timestamp ∧
      toSec r.timestamp < toSec (truncMin tNow) + 60 ∧
      r.id ∉ cacheIds st.sent_ids := by
  simp [tickDue, dueQuery, dueP, List.mem_filter, and_assoc]

theorem tick_store (sink : SMsg → Bool) (tNow : DateTime) (st : SchedState) :
    (tick sink tNow st).1.store =
      (add_repeating_events (toSec (truncMin tNow)) (cacheIds st.sent_ids)
        st.store st.nextId).1 := rfl

theorem tick_nextId (sink : SMsg → Bool) (tNow : DateTime) (st : SchedState) :
    (tick sink tNow st).1.nextId =
      (add_repeating_events (toSec (truncMin tNow)) (cacheIds st.sent_ids)
        st.store st.nextId).2.1 := rfl

theorem tick_sent_ids (sink : SMsg → Bool) (tNow : DateTime) (st : SchedState) :
    (tick sink tNow st).1.sent_ids =
      (st.sent_ids ++ (tickDue tNow st).map (fun r => (toSec tNow, r.id))).filter
        (fun e => decide (toSec tNow - 120 < e.1)) := rfl

theorem tick_events (sink : SMsg → Bool) (tNow : DateTime) (st : SchedState) :
    (tick sink tNow st).2 =
      (add_repeating_events (toSec (truncMin tNow)) (cacheIds st.sent_ids)
          st.store st.nextId).2.2
        ++ (tickDue tNow st).map (fun r => Event.deliver r.id (sink r)) := rfl

theorem runTicks_cons (sink : SMsg → Bool) (st : SchedState) (t : DateTime)
    (ts : List DateTime) :
    (runTicks sink st (t :: ts)).2 =
      (tick sink t st).2 ++ (runTicks sink (tick sink t st).1 ts).2 := rfl

theorem deliverCount_tick (sink : SMsg → Bool) (tNow : DateTime)
    (st : SchedState) (pid : Nat) :
    deliverCount pid (tick sink tNow st).2 =
      (tickDue tNow st).countP (fun r => r.id == pid) := by
  rw [deliverCount, tick_events, List.countP_append]
  have hz : (add_repeating_events (toSec (truncMin tNow))
      (cacheIds st.sent_ids) st.store st.nextId).2.2.countP
        (isDeliverOf pid) = 0 := by
    rw [are_events_eq, List.countP_append, List.countP_append,
      mkSuccEvents_no_deliver, mkSuccEvents_no_deliver, mkSuccEvents_no_deliver]
  rw [hz, Nat.zero_add, List.countP_map]
  rfl

theorem insertCount_tick (sink : SMsg → Bool) (tNow : DateTime)
    (st : SchedState) (pid : Nat) :
    insertCount pid (tick sink tNow st).2 =
      insertCount pid (add_repeating_events (toSec (truncMin tNow))
        (cacheIds st.sent_ids) st.store st.nextId).2.2 := by
  rw [insertCount, tick_events, List.countP_append, insertCount]
  have hz : ((tickDue tNow st).map
      (fun r => Event.deliver r.id (sink r))).countP (isInsertOf pid) = 0 := by
    rw [List.countP_eq_zero]
    intro e he
    obtain ⟨r, _, rfl⟩ := List.mem_map.mp he
    simp [isInsertOf]
  rw [hz, Nat.add_zero]

/-! ### Cache membership across one tick -/

theorem mem_tick_sent_old {sink : SMsg → Bool} {tNow : DateTime}
    {st : SchedState} {e : Int × Nat} (he : e ∈ st.sent_ids)
    (hfresh : toSec tNow - 120 < e.1) :
    e ∈ (tick sink tNow st).1.sent_ids := by
  rw [tick_sent_ids]
  exact List.mem_filter.mpr ⟨List.mem_append_left _ he, by simpa using hfresh⟩

theorem mem_tick_sent_new {sink : SMsg → Bool} {tNow : DateTime}
    {st : SchedState} {r : SMsg} (hr : r ∈ tickDue tNow st) :
    (toSec tNow, r.id) ∈ (tick sink tNow st).1.sent_ids := by
  rw [tick_sent_ids]
  refine List.mem_filter.mpr ⟨List.mem_append_right _ ?_, by simp⟩
  exact List.mem_map.mpr ⟨r, hr, rfl⟩

theorem mem_cacheIds {c : List (Int × Nat)} {pid : Nat} :
    pid ∈ cacheIds c ↔ ∃ τ, (τ, pid) ∈ c := by
  constructor
  · intro h
    obtain ⟨⟨τ, i⟩, he, hev⟩ := List.mem_map.mp h
    subst hev
    exact ⟨τ, he⟩
  · rintro ⟨τ, hτ⟩
    exact List.mem_map.mpr ⟨(τ, pid), hτ, rfl⟩

/-! ### Counting deliveries inside one tick -/

theorem tickDue_countP_zero {tNow : DateTime} {st : SchedState} {pid : Nat}
    (h : pid ∈ cacheIds st.sent_ids) :
    (tickDue tNow st).countP (fun r => r.id == pid) = 0 := by
  rw [List.countP_eq_zero]
  intro r hr hrp
  exact (mem_tickDue.mp hr).2.2.2 (by rw [eq_of_beq hrp]; exact h)

theorem tickDue_countP_one {tNow : DateTime} {st : SchedState} {r : SMsg}
    (hnd : (st.store.map SMsg.id).Nodup) (hr : r ∈ tickDue tNow st) :
    (tickDue tNow st).countP (fun c => c.id == r.id) = 1 := by
  have hsub : List.Sublist (tickDue tNow st) st.store := List.filter_sublist _
  exact countP_eq_one_of_unique _ r
    (List.Nodup.sublist (List.Sublist.map SMsg.id hsub) hnd) hr
    (by simp) (fun x _ hx => eq_of_beq hx)

/-! ### Well-formedness is preserved -/

theorem expandPass_wf (tag : RepeatTag) (w : Int) (x : List Nat)
    {s : List SMsg} {n : Nat} (hnd : (s.map SMsg.id).Nodup)
    (hlt : ∀ r ∈ s, r.id < n) :
    ((expandPass tag w x s n).1.map SMsg.id).Nodup ∧
    (∀ r ∈ (expandPass tag w x s n).1, r.id < (expandPass tag w x s n).2.1) ∧
    n ≤ (expandPass tag w x s n).2.1 := by
  simp only [expandPass]
  refine ⟨?_, ?_, Nat.le_add_right n _⟩
  · rw [List.map_append, List.nodup_append]
    refine ⟨hnd, mkSuccs_ids_nodup tag n _, ?_⟩
    intro i hi hi'
    obtain ⟨r, hr, rfl⟩ := List.mem_map.mp hi
    obtain ⟨r', hr', hr'id⟩ := List.mem_map.mp hi'
    have := mkSuccs_id_ge hr'
    have := hlt r hr
    omega
  · intro r hr
    rcases List.mem_append.mp hr with h | h
    · exact Nat.lt_of_lt_of_le (hlt r h) (Nat.le_add_right n _)
    · exact mkSuccs_id_lt h

theorem are_wf (w : Int) (x : List Nat) {s : List SMsg} {n : Nat}
    (hnd : (s.map SMsg.id).Nodup) (hlt : ∀ r ∈ s, r.id < n) :
    (((add_repeating_events w x s n).1.map SMsg.id).Nodup ∧
      ∀ r ∈ (add_repeating_events w x s n).1,
        r.id < (add_repeating_events w x s n).2.1) := by
  obtain ⟨h1, h2, _⟩ := expandPass_wf .daily w x hnd hlt
  obtain ⟨h1', h2', _⟩ := expandPass_wf .monthly w x h1 h2
  obtain ⟨h1'', h2'', _⟩ := expandPass_wf .yearly w x h1' h2'
  exact ⟨h1'', h2''⟩

theorem tick_wf {sink : SMsg → Bool} {tNow : DateTime} {st : SchedState}
    (h : wf st) : wf (tick sink tNow st).1 := by
  obtain ⟨hnd, hlt⟩ := h
  obtain ⟨h1, h2⟩ := are_wf (toSec (truncMin tNow)) (cacheIds st.sent_ids)
    hnd hlt
  exact ⟨by rw [tick_store]; exact h1, by rw [tick_store, tick_nextId]; exact h2⟩

/-! ### A cached id stays cached, delivered and expanded zero times -/

theorem tick_cached_counts {sink : SMsg → Bool} {tNow : DateTime}
    {st : SchedState} {pid : Nat} (h : pid ∈ cacheIds st.sent_ids) :
    deliverCount pid (tick sink tNow st).2 = 0 ∧
    insertCount pid (tick sink tNow st).2 = 0 := by
  constructor
  · rw [deliverCount_tick]
    exact tickDue_countP_zero h
  · rw [insertCount_tick]
    exact insertCount_are_of_mem_excl _ _ _ h

theorem tick_cached_keep {sink : SMsg → Bool} {tNow W : DateTime}
    {st : SchedState} {τ : Int} {pid : Nat}
    (hW : truncMin tNow = W) (hs : tNow.second < 60)
    (hmem : (τ, pid) ∈ st.sent_ids) (hτ : toSec W ≤ τ) :
    (τ, pid) ∈ (tick sink tNow st).1.sent_ids := by
  apply mem_tick_sent_old hmem
  have htr := toSec_truncMin tNow
  rw [hW] at htr
  omega

theorem runTicks_cached {sink : SMsg → Bool} {ts : List DateTime}
    {st : SchedState} {τ : Int} {pid : Nat} {W : DateTime}
    (hall : ∀ t ∈ ts, truncMin t = W ∧ t.second < 60)
    (hmem : (τ, pid) ∈ st.sent_ids) (hτ : toSec W ≤ τ) :
    deliverCount pid (runTicks sink st ts).2 = 0 ∧
    insertCount pid (runTicks sink st ts).2 = 0 := by
  induction ts generalizing st with
  | nil => simp [runTicks, deliverCount, insertCount]
  | cons t ts ih =>
    have hids : pid ∈ cacheIds st.sent_ids := mem_cacheIds.mpr ⟨τ, hmem⟩
    have h1 := @tick_cached_counts sink t st pid hids
    have h2 := @tick_cached_keep sink t W st τ pid
      (hall t (List.mem_cons_self t ts)).1 (hall t (List.mem_cons_self t ts)).2
      hmem hτ
    have h3 := ih (fun u hu => hall u (List.mem_cons_of_mem t hu)) h2
    rw [runTicks_cons]
    constructor
    · rw [deliverCount, List.countP_append]
      rw [deliverCount] at h1 h3
      omega
    · rw [insertCount, List.countP_append]
      rw [insertCount] at h1 h3
      omega

/-! ### Main loop lemmas -/

theorem toSec_truncMin_le (t : DateTime) : toSec (truncMin t) ≤ toSec t := by
  have := toSec_truncMin t
  omega

theorem runTicks_insert_le {sink : SMsg → Bool} {ts : List DateTime}
    {st : SchedState} {pid : Nat} {W : DateTime} (hwf : wf st)
    (hall : ∀ t ∈ ts, truncMin t = W ∧ t.second < 60) :
    insertCount pid (runTicks sink st ts).2 ≤ 1 := by
  induction ts generalizing st with
  | nil => simp [runTicks, insertCount]
  | cons t ts ih =>
    have htail : ∀ u ∈ ts, truncMin u = W ∧ u.second < 60 :=
      fun u hu => hall u (List.mem_cons_of_mem t hu)
    have htick_le : insertCount pid (tick sink t st).2 ≤ 1 := by
      rw [insertCount_tick]
      exact insertCount_are_le_one _ _ _ _ hwf.1
    rw [runTicks_cons, insertCount, List.countP_append]
    by_cases hz : insertCount pid (tick sink t st).2 = 0
    · have hrest := @ih (tick sink t st).1 (@tick_wf sink t st hwf) htail
      rw [insertCount] at hz hrest
      omega
    · have hpos : 0 < insertCount pid (tick sink t st).2 :=
        Nat.pos_of_ne_zero hz
      rw [insertCount_tick] at hpos
      obtain ⟨c, hcmem, hcid, hcdue⟩ :=
        insertCount_are_pos_due _ _ _ _ _ hpos
      have hcl : c ∈ tickDue t st := List.mem_filter.mpr ⟨hcmem, hcdue⟩
      have hkey : (toSec t, pid) ∈ (tick sink t st).1.sent_ids := by
        rw [← hcid]
        exact mem_tick_sent_new hcl
      have hτ : toSec W ≤ toSec t := by
        rw [← (hall t (List.mem_cons_self t ts)).1]
        exact toSec_truncMin_le t
      have hrest :=
        (@runTicks_cached sink ts (tick sink t st).1 (toSec t) pid W
          htail hkey hτ).2
      rw [insertCount] at htick_le hrest
      omega

/-- C1.  At-most-once delivery within one process lifetime: a record of
the store that is due in the window of the first tick and whose id is not
yet in the dedup cache is passed to the Delivery Sink exactly once over
any run of consecutive ticks falling in the same truncated minute — it is
delivered on the first tick, its id is then cached, the due query of
every later tick excludes it, and the two-minute cache retention outlasts
the one-minute window. -/
theorem c1_at_most_once (sink : SMsg → Bool) (t0 : DateTime)
    (rest : List DateTime) (st : SchedState) (r : SMsg)
    (hwf : wf st)
    (hmem : r ∈ st.store)
    (hdue1 : toSec (truncMin t0) ≤ toSec r.timestamp)
    (hdue2 : toSec r.timestamp < toSec (truncMin t0) + 60)
    (hnc : r.id ∉ cacheIds st.sent_ids)
    (hmin : ∀ t ∈ t0 :: rest, truncMin t = truncMin t0 ∧ t.second < 60) :
    deliverCount r.id (runTicks sink st (t0 :: rest)).2 = 1 := by
  have hr : r ∈ tickDue t0 st := mem_tickDue.mpr ⟨hmem, hdue1, hdue2, hnc⟩
  have hdc : deliverCount r.id (tick sink t0 st).2 = 1 := by
    rw [deliverCount_tick]
    exact tickDue_countP_one hwf.1 hr
  have hkey : (toSec t0, r.id) ∈ (tick sink t0 st).1.sent_ids :=
    mem_tick_sent_new hr
  have hrest :=
    (@runTicks_cached sink rest (tick sink t0 st).1 (toSec t0) r.id
      (truncMin t0) (fun t ht => hmin t (List.mem_cons_of_mem t0 ht)) hkey
      (toSec_truncMin_le t0)).1
  rw [runTicks_cons, deliverCount, List.countP_append]
  rw [deliverCount] at hdc hrest
  omega

/-- C2.  Window computation and due query: a record is returned by the
due query of a tick at current time `tNow` exactly when it is in the
store, its timestamp lies in the half-open window
`[truncMin tNow, truncMin tNow + 1 minute)`, and its id is not among the
ids currently held in the dedup cache. -/
theorem c2_window_due_query (tNow : DateTime) (st : SchedState) (r : SMsg) :
    r ∈ tickDue tNow st ↔
      r ∈ st.store ∧ toSec (truncMin tNow) ≤ toSec r.timestamp ∧
      toSec r.timestamp < toSec (truncMin tNow) + 60 ∧
      r.id ∉ cacheIds st.sent_ids :=
  mem_tickDue

/-- C5.  Idempotent expansion: across any run of consecutive ticks inside
one truncated minute, at most one successor row is inserted from any
given record id, because expansion eligibility excludes ids already in
the dedup cache and every expanded record's id enters that cache in the
same tick. -/
theorem c5_idempotent_expansion (sink : SMsg → Bool) (t0 : DateTime)
    (rest : List DateTime) (st : SchedState) (pid : Nat)
    (hwf : wf st)
    (hmin : ∀ t ∈ t0 :: rest, truncMin t = truncMin t0 ∧ t.second < 60) :
    insertCount pid (runTicks sink st (t0 :: rest)).2 ≤ 1 :=
  @runTicks_insert_le sink (t0 :: rest) st pid (truncMin t0) hwf hmin

theorem insert_event_shape (w : Int) (x : List Nat) {store : List SMsg}
    {r s : SMsg} {tag tag' : RepeatTag} {n n' : Nat}
    (hnd : (store.map SMsg.id).Nodup) (hlt : ∀ m ∈ store, m.id < n)
    (hmem : r ∈ store) (hrep : r.rep = some tag) (hn : n ≤ n')
    (hs : Event.insertSucc r.id s ∈
      mkSuccEvents tag' n' (store.filter (candP tag' w x))) :
    tag' = tag ∧ s.guild_id = r.guild_id ∧ s.channel_id = r.channel_id ∧
    s.user_id = r.user_id ∧ s.text = r.text ∧ s.rep = r.rep ∧
    s.timestamp = advanceBy tag r.timestamp ∧ s.id ∉ store.map SMsg.id ∧
    s ∈ mkSuccs tag' n' (store.filter (candP tag' w x)) := by
  obtain ⟨c, hcK, hcid, ⟨k, hk, hsk⟩, hmemSuccs⟩ := mem_mkSuccEvents hs
  have hcr : c = r :=
    id_inj_of_nodup hnd ((List.mem_filter.mp hcK).1) hmem hcid
  subst hcr
  have htag : tag' = tag := by
    have hc := filter_cands_rep tag' w x store c hcK
    rw [hrep] at hc
    exact (Option.some.inj hc).symm
  subst hsk
  refine ⟨htag, rfl, rfl, rfl, rfl, rfl, ?_, ?_, hmemSuccs⟩
  · rw [mkSucc, htag]
  · intro habs
    obtain ⟨m, hm, hmid⟩ := List.mem_map.mp habs
    have := hlt m hm
    simp only [mkSucc] at hmid
    omega

/-- C3.  Successor shape, and the original row untouched: a record of the
store with a repeat tag, timestamp inside the window and id not excluded
gives rise to exactly one successor-insertion; every such insertion
carries a new row that is in the resulting store with the same
`guild_id`, `channel_id`, `user_id`, `text` and `repeat`, a timestamp
advanced by the matching interval and an id not present in the original
store; and the resulting store extends the original store, so the
original row survives with no field changed. -/
theorem c3_successor_shape (w : Int) (x : List Nat) (store : List SMsg)
    (n : Nat) (r : SMsg) (tag : RepeatTag)
    (hnd : (store.map SMsg.id).Nodup) (hlt : ∀ m ∈ store, m.id < n)
    (hmem : r ∈ store) (hrep : r.rep = some tag)
    (hw1 : w ≤ toSec r.timestamp) (hw2 : toSec r.timestamp < w + 60)
    (hnx : r.id ∉ x) :
    insertCount r.id (add_repeating_events w x store n).2.2 = 1 ∧
    (∀ s : SMsg, Event.insertSucc r.id s ∈ (add_repeating_events w x store n).2.2 →
       s ∈ (add_repeating_events w x store n).1 ∧
       s.guild_id = r.guild_id ∧ s.channel_id = r.channel_id ∧
       s.user_id = r.user_id ∧ s.text = r.text ∧ s.rep = r.rep ∧
       s.timestamp = advanceBy tag r.timestamp ∧
       s.id ∉ store.map SMsg.id) ∧
    (∃ added, (add_repeating_events w x store n).1 = store ++ added) := by
  have hdue : dueP w x r = true := by simp [dueP, hw1, hw2, hnx]
  have hcand : candP tag w x r = true := by simp [candP, hdue, hrep]
  have hrK : r ∈ store.filter (candP tag w x) :=
    List.mem_filter.mpr ⟨hmem, hcand⟩
  refine ⟨?_, ?_, ?_⟩
  · have hcount : ∀ tag' : RepeatTag,
        (store.filter (candP tag' w x)).countP (fun c => c.id == r.id) =
          if tag' = tag then 1 else 0 := by
      intro tag'
      by_cases h : tag' = tag
      · subst h
        rw [if_pos rfl]
        exact countP_eq_one_of_unique _ r
          (List.Nodup.sublist (List.Sublist.map SMsg.id
            (List.filter_sublist _)) hnd) hrK (by simp)
          (fun y _ hy => eq_of_beq hy)
      · rw [if_neg h, List.countP_eq_zero]
        intro c hc hcb
        have hcr : c = r := id_inj_of_nodup hnd
          ((List.mem_filter.mp hc).1) hmem (eq_of_beq hcb)
        have hctag := filter_cands_rep tag' w x store c hc
        rw [hcr, hrep] at hctag
        exact h (Option.some.inj hctag).symm
    rw [insertCount_are, hcount, hcount, hcount]
    rcases tag <;> simp
  · intro s hs
    rw [are_events_eq] at hs
    have hfinal : ∀ {tag' : RepeatTag} {n' : Nat},
        s ∈ mkSuccs tag' n' (store.filter (candP tag' w x)) →
        mkSuccs tag' n' (store.filter (candP tag' w x)) ⊆
          (add_repeating_events w x store n).1 →
        s ∈ (add_repeating_events w x store n).1 :=
      fun hmem' hsub => hsub hmem'
    rcases List.mem_append.mp hs with h1 | h23
    · obtain ⟨_, g1, g2, g3, g4, g5, g6, g7, gmem⟩ :=
        insert_event_shape w x hnd hlt hmem hrep (Nat.le_refl n) h1
      refine ⟨?_, g1, g2, g3, g4, g5, g6, g7⟩
      rw [are_store_eq]
      exact List.mem_append_left _ (List.mem_append_left _
        (List.mem_append_right _ gmem))
    · rcases List.mem_append.mp h23 with h2 | h3
      · obtain ⟨_, g1, g2, g3, g4, g5, g6, g7, gmem⟩ :=
          insert_event_shape w x hnd hlt hmem hrep
            (Nat.le_add_right n _) h2
        refine ⟨?_, g1, g2, g3, g4, g5, g6, g7⟩
        rw [are_store_eq]
        exact List.mem_append_left _ (List.mem_append_right _ gmem)
      · obtain ⟨_, g1, g2, g3, g4, g5, g6, g7, gmem⟩ :=
          insert_event_shape w x hnd hlt hmem hrep
            (by omega : n ≤ n + (store.filter (candP .daily w x)).length
              + (store.filter (candP .monthly w x)).length) h3
        refine ⟨?_, g1, g2, g3, g4, g5, g6, g7⟩
        rw [are_store_eq]
        exact List.mem_append_right _ gmem
  · exact ⟨_, by rw [are_store_eq, List.append_assoc, List.append_assoc]⟩

/-- C4.  Calendar clamping of the monthly and yearly intervals: adding
one month preserves the day-of-month whenever the destination month is
long enough and otherwise clamps to the destination month's last day
(Jan 31 to Feb 28, or Feb 29 in a leap year); a clamped value persists
forward (Mar 31 to Apr 30, then Apr 30 to May 30, never recovering
day 31); adding one year clamps the same way, taking Feb 29 to Feb 28 of
a non-leap year. -/
theorem c4_calendar_clamp :
    (∀ t : DateTime,
      t.day ≤ daysInMonth (addOneMonth t).year (addOneMonth t).month →
      (addOneMonth t).day = t.day) ∧
    (∀ t : DateTime,
      daysInMonth (addOneMonth t).year (addOneMonth t).month < t.day →
      (addOneMonth t).day =
        daysInMonth (addOneMonth t).year (addOneMonth t).month) ∧
    addOneMonth ⟨2023, 1, 31, 9, 0, 0⟩ = ⟨2023, 2, 28, 9, 0, 0⟩ ∧
    addOneMonth ⟨2024, 1, 31, 9, 0, 0⟩ = ⟨2024, 2, 29, 9, 0, 0⟩ ∧
    addOneMonth ⟨2023, 3, 31, 9, 0, 0⟩ = ⟨2023, 4, 30, 9, 0, 0⟩ ∧
    addOneMonth ⟨2023, 4, 30, 9, 0, 0⟩ = ⟨2023, 5, 30, 9, 0, 0⟩ ∧
    (∀ t : DateTime,
      (addOneYear t).day = min t.day (daysInMonth (t.year + 1) t.month)) ∧
    addOneYear ⟨2024, 2, 29, 9, 0, 0⟩ = ⟨2025, 2, 28, 9, 0, 0⟩ := by
  have hmonth : ∀ t : DateTime, (addOneMonth t).day =
      min t.day (daysInMonth (addOneMonth t).year (addOneMonth t).month) := by
    intro t
    by_cases h : (t.month == 12) = true <;> simp [addOneMonth, h]
  refine ⟨?_, ?_, by decide, by decide, by decide, by decide,
    fun t => rfl, by decide⟩
  · intro t h
    rw [hmonth t]
    exact Nat.min_eq_left h
  · intro t h
    rw [hmonth t]
    exact Nat.min_eq_right (Nat.le_of_lt h)

theorem are_events_shape (w : Int) (x : List Nat) (s : List SMsg) (n : Nat) :
    ∀ e ∈ (add_repeating_events w x s n).2.2,
      ∃ p s', e = Event.insertSucc p s' := by
  rw [are_events_eq]
  intro e he
  rcases List.mem_append.mp he with h | h
  · exact mkSuccEvents_shape e h
  · rcases List.mem_append.mp h with h' | h' <;> exact mkSuccEvents_shape e h'

/-- C7.  Per-record failure isolation and unconditional dedup recording:
every record fetched as due in a tick receives its own delivery attempt
with its own outcome, whatever the Delivery Sink does on the other
records of the batch, and its `(attempt_time, id)` pair is in the dedup
cache after the tick whether or not its delivery succeeded. -/
theorem c7_isolation_and_recording (sink : SMsg → Bool) (tNow : DateTime)
    (st : SchedState) (r : SMsg) (hr : r ∈ tickDue tNow st) :
    Event.deliver r.id (sink r) ∈ (tick sink tNow st).2 ∧
    (toSec tNow, r.id) ∈ (tick sink tNow st).1.sent_ids := by
  constructor
  · rw [tick_events]
    exact List.mem_append_right _ (List.mem_map.mpr ⟨r, hr, rfl⟩)
  · exact mem_tick_sent_new hr

/-- C8.  Expansion precedes delivery: the event trace of every tick is a
block of successor insertions followed by a block of delivery attempts,
and the state left by the tick (in particular the store holding the
successors) does not depend on the Delivery Sink at all, so a successor
exists even when delivery of the current occurrence fails. -/
theorem c8_expansion_precedes_delivery (sink sink' : SMsg → Bool)
    (tNow : DateTime) (st : SchedState) :
    (∃ es ds, (tick sink tNow st).2 = es ++ ds ∧
      (∀ e ∈ es, ∃ p s, e = Event.insertSucc p s) ∧
      (∀ e ∈ ds, ∃ i b, e = Event.deliver i b)) ∧
    (tick sink tNow st).1 = (tick sink' tNow st).1 := by
  refine ⟨⟨_, _, tick_events sink tNow st, are_events_shape _ _ _ _, ?_⟩, rfl⟩
  intro e he
  obtain ⟨r, _, rfl⟩ := List.mem_map.mp he
  exact ⟨r.id, sink r, rfl⟩

def exC6msg : SMsg := ⟨1, 10, 20, 30, "hey", ⟨2024, 5, 17, 12, 4, 0⟩, some .daily⟩

def exC6st : SchedState := ⟨[exC6msg], [], 5⟩

def exC6now : DateTime := ⟨2024, 5, 17, 12, 4, 30⟩

/-- C6 counterexample.  The claim that a Store failure anywhere in the
tick leaves no successor in the Store is false: when the monthly insert
statement fails, the daily insert statement has already committed, so the
store differs from the pre-tick store (the cache part of the claim does
hold). -/
theorem c6_counterexample :
    ¬ ((tickFail .insMonthly exC6now exC6st).sent_ids = exC6st.sent_ids ∧
       (tickFail .insMonthly exC6now exC6st).store = exC6st.store) := by
  decide

/-- C6 amended.  On a failed tick no dedup entry is ever recorded and no
delivery is attempted; the store is unchanged exactly when the failing
statement is the due query or the first (daily) insert, while a failure
of the monthly (resp. yearly) insert keeps the successor rows of the
statements that completed earlier in the tick. -/
theorem c6_amended_tick_failure (fail : DbCall) (tNow : DateTime)
    (st : SchedState) :
    (tickFail fail tNow st).sent_ids = st.sent_ids ∧
    ((fail = .query ∨ fail = .insDaily) → tickFail fail tNow st = st) ∧
    (fail = .insMonthly → (tickFail fail tNow st).store =
      (expandPass .daily (toSec (truncMin tNow)) (cacheIds st.sent_ids)
        st.store st.nextId).1) ∧
    (fail = .insYearly → (tickFail fail tNow st).store =
      (expandPass .monthly (toSec (truncMin tNow)) (cacheIds st.sent_ids)
        (expandPass .daily (toSec (truncMin tNow)) (cacheIds st.sent_ids)
          st.store st.nextId).1
        (expandPass .daily (toSec (truncMin tNow)) (cacheIds st.sent_ids)
          st.store st.nextId).2.1).1) := by
  cases fail <;> simp [tickFail]

theorem c6_witness :
    (tickFail .query exC6now exC6st).sent_ids = exC6st.sent_ids ∧
    tickFail .query exC6now exC6st = exC6st :=
  ⟨(c6_amended_tick_failure .query exC6now exC6st).1,
   (c6_amended_tick_failure .query exC6now exC6st).2.1 (Or.inl rfl)⟩

def exC7sink : SMsg → Bool := fun m => !(m.id == 2)

def exC7m1 : SMsg := ⟨1, 10, 20, 30, "one", ⟨2024, 5, 17, 12, 4, 0⟩, none⟩

def exC7m2 : SMsg := ⟨2, 10, 20, 30, "two", ⟨2024, 5, 17, 12, 4, 10⟩, none⟩

def exC7m3 : SMsg := ⟨3, 10, 20, 30, "three", ⟨2024, 5, 17, 12, 4, 20⟩, none⟩

def exC7st : SchedState := ⟨[exC7m1, exC7m2, exC7m3], [], 5⟩

def exC7now : DateTime := ⟨2024, 5, 17, 12, 4, 30⟩

theorem c7_witness :
    Event.deliver exC7m2.id (exC7sink exC7m2) ∈
      (tick exC7sink exC7now exC7st).2 ∧
    (toSec exC7now, exC7m2.id) ∈ (tick exC7sink exC7now exC7st).1.sent_ids :=
  c7_isolation_and_recording exC7sink exC7now exC7st exC7m2 (by decide)

def exC9e : Int × Nat := (toSec ⟨2024, 5, 17, 12, 2, 30⟩, 5)

def exC9now : DateTime := ⟨2024, 5, 17, 12, 4, 30⟩

def exC9st : SchedState := ⟨[], [exC9e], 0⟩

/-- C9 counterexample.  Eviction does not remove exactly the entries
strictly older than the two-minute horizon: an entry whose age is exactly
two minutes is removed by the tick although it is not older than the
horizon. -/
theorem c9_counterexample :
    exC9e ∈ exC9st.sent_ids ∧
    exC9e ∉ (tick (fun _ => true) exC9now exC9st).1.sent_ids ∧
    ¬ (exC9e.1 < toSec exC9now - 120) := by
  decide

/-- C9 amended.  Eviction runs on every tick and keeps a pre-existing
cache entry exactly when its recorded time is within the two-minute
horizon: an entry recorded at `T` is still present after a tick at `T'`
exactly when `T' - T < 120`, so it is guaranteed present while the age is
below the horizon and guaranteed absent once the age reaches it. -/
theorem c9_amended_eviction (sink : SMsg → Bool) (tNow : DateTime)
    (st : SchedState) (e : Int × Nat) (he : e ∈ st.sent_ids) :
    e ∈ (tick sink tNow st).1.sent_ids ↔ toSec tNow - 120 < e.1 := by
  rw [tick_sent_ids]
  constructor
  · intro h
    simpa using (List.mem_filter.mp h).2
  · intro h
    exact List.mem_filter.mpr ⟨List.mem_append_left _ he, by simpa using h⟩

theorem c9_witness :
    (((toSec exC9now - 60, 7) : Int × Nat) ∈
      (tick (fun _ => true) exC9now
        ⟨[], [(toSec exC9now - 60, 7)], 0⟩).1.sent_ids) ↔
    toSec exC9now - 120 < toSec exC9now - 60 :=
  c9_amended_eviction _ exC9now _ _ (by decide)

/-- C10.  `get_day_suffix` selects the ordinal suffix from the last
character of the decimal representation only: it returns `st`, `nd`,
`rd` when the representation ends in `1`, `2`, `3` respectively and `th`
otherwise; in particular 11, 12 and 13 give `st`, `nd`, `rd`, not
`th`. -/
theorem c10_get_day_suffix :
    (∀ n : Nat,
      ((Nat.repr n).back = '1' → get_day_suffix n = "st") ∧
      ((Nat.repr n).back = '2' → get_day_suffix n = "nd") ∧
      ((Nat.repr n).back = '3' → get_day_suffix n = "rd") ∧
      ((Nat.repr n).back ≠ '1' → (Nat.repr n).back ≠ '2' →
        (Nat.repr n).back ≠ '3' → get_day_suffix n = "th")) ∧
    get_day_suffix 11 = "st" ∧ get_day_suffix 12 = "nd" ∧
    get_day_suffix 13 = "rd" := by
  refine ⟨fun n => ⟨?_, ?_, ?_, ?_⟩, by decide, by decide, by decide⟩
  · intro h
    simp [get_day_suffix, h]
  · intro h
    simp [get_day_suffix, h]
  · intro h
    simp [get_day_suffix, h]
  · intro h1 h2 h3
    simp [get_day_suffix, h1, h2, h3]

theorem c10_witness : get_day_suffix 21 = "st" :=
  (c10_get_day_suffix.1 21).1 (by decide)

def exC1msg : SMsg := ⟨1, 10, 20, 30, "hello", ⟨2024, 5, 17, 12, 4, 0⟩, none⟩

def exC1st : SchedState := ⟨[exC1msg], [], 5⟩

theorem c1_witness :
    deliverCount 1 (runTicks (fun _ => true) exC1st
      [⟨2024, 5, 17, 12, 4, 5⟩, ⟨2024, 5, 17, 12, 4, 15⟩,
       ⟨2024, 5, 17, 12, 4, 25⟩]).2 = 1 :=
  c1_at_most_once (fun _ => true) ⟨2024, 5, 17, 12, 4, 5⟩
    [⟨2024, 5, 17, 12, 4, 15⟩, ⟨2024, 5, 17, 12, 4, 25⟩] exC1st exC1msg
    ⟨by decide, by decide⟩ (by decide) (by decide) (by decide) (by decide)
    (by decide)

def exC3msg : SMsg := ⟨2, 11, 21, 31, "mon", ⟨2024, 1, 31, 8, 30, 0⟩, some .monthly⟩

def exC3store : List SMsg := [exC3msg]

theorem c3_witness :
    insertCount 2 (add_repeating_events (toSec ⟨2024, 1, 31, 8, 30, 0⟩) []
      exC3store 7).2.2 = 1 :=
  (c3_successor_shape (toSec ⟨2024, 1, 31, 8, 30, 0⟩) [] exC3store 7 exC3msg
    .monthly (by decide) (by decide) (by decide) (by decide) (by decide)
    (by decide) (by decide)).1

theorem c4_witness : (addOneMonth ⟨2024, 1, 15, 0, 0, 0⟩).day = 15 :=
  c4_calendar_clamp.1 ⟨2024, 1, 15, 0, 0, 0⟩ (by decide)

def exC5msg : SMsg := ⟨3, 12, 22, 32, "rep", ⟨2024, 5, 17, 12, 4, 0⟩, some .daily⟩

def exC5st : SchedState := ⟨[exC5msg], [], 9⟩

theorem c5_witness :
    insertCount 3 (runTicks (fun _ => true) exC5st
      [⟨2024, 5, 17, 12, 4, 5⟩, ⟨2024, 5, 17, 12, 4, 15⟩]).2 ≤ 1 :=
  c5_idempotent_expansion (fun _ => true) ⟨2024, 5, 17, 12, 4, 5⟩
    [⟨2024, 5, 17, 12, 4, 15⟩] exC5st 3 ⟨by decide, by decide⟩ (by decide)

end Calendar
